import Mathlib

attribute [local semireducible] Rat.add Rat.mul Rat.sub

/-!
Shallow embedding of the Trading-Backtester core (src/strategies.py and
src/backtest.py): the martingale engine `martingale_strategy`, the plain
execution engine `execute_signals`, and the trade reconstructor
`_extract_trades_from_positions` (here `extract_trades_from_positions`).

Prices are embedded as `Option ℚ` (pandas `to_numeric(errors='coerce')`
produces NaN for non-numeric values, modelled as `none`); signals are
`Option ℤ` (a missing cell is `none`; `int(NaN)` raises in Python, modelled
as `Except.error ()`).  The pandas DataFrame columns
Datetime / Close / Signal / Position / P&L / Closed become the fields of
`Row`; the fills ledger rows become `Fill`.
-/

/-- One input bar: the Datetime, Close and Signal cells of a DataFrame row. -/
structure Bar where
  datetime : ℤ
  close : Option ℚ
  signal : Option ℤ
  deriving DecidableEq, Repr

/-- The 'Act' column of the fills ledger: 'BUY' or 'SELL'. -/
inductive Act where
  | buy
  | sell
  deriving DecidableEq, Repr

/-- The 'Note' column of the fills ledger (the f-string payloads are kept). -/
inductive Note where
  | openPos
  | tpClose (tp : ℚ)
  | add (mult : ℚ)
  | flipClose
  | flipCloseNoDD
  | flipOpen
  | sessionClose
  deriving DecidableEq, Repr

/-- One row of the `trades` fills ledger built by `martingale_strategy`. -/
structure Fill where
  datetime : ℤ
  action : Act
  close : Option ℚ
  position : ℚ
  note : Note
  deriving DecidableEq, Repr

/-- One output DataFrame row: Datetime, Close, (transformed) Signal,
Position, P&L, Closed. -/
structure Row where
  datetime : ℤ
  close : Option ℚ
  signal : Option ℤ
  position : ℚ
  pnl : ℚ
  closed : Bool
  deriving DecidableEq, Repr

/-- The keyword arguments of `martingale_strategy`. -/
structure MCfg where
  base_lot : ℚ
  multiplier : ℚ
  step : ℚ
  take_profit : ℚ
  reverse_signals : Bool
  close_on_flip : Bool
  deriving DecidableEq, Repr

/-- The loop state of `martingale_strategy`: the `side`, `current_lot` and
`entry_price` variables. -/
structure MState where
  side : ℤ
  lot : ℚ
  entry : Option ℚ
  deriving DecidableEq, Repr

/-- `sig_mult = -1 if reverse_signals else 1`. -/
def sigMult (cfg : MCfg) : ℤ :=
  if cfg.reverse_signals then -1 else 1

/-- The transformed Signal column value for one cell:
`df['Signal'] = (df['Signal'] * sig_mult) if 'Signal' in df.columns else 0`. -/
def sigOut (hs : Bool) (m : ℤ) (s : Option ℤ) : Option ℤ :=
  if hs then s.map (fun v => v * m) else some 0

/-- Reading `sig = int(df.at[i-1,'Signal'])`: when the Signal column is
present (`hs = true`) a missing cell raises (`int(NaN)` is a `ValueError`);
when the column is absent every signal reads as 0. -/
def readSig (hs : Bool) (m : ℤ) (s : Option ℤ) : Except Unit ℤ :=
  if hs then
    match s with
    | some v => Except.ok (v * m)
    | none => Except.error ()
  else Except.ok 0

/-- `'BUY' if side == 1 else 'SELL'`. -/
def actOf (side : ℤ) : Act :=
  if side = 1 then Act.buy else Act.sell

/-- `'SELL' if side == 1 else 'BUY'`. -/
def closeActOf (side : ℤ) : Act :=
  if side = 1 then Act.sell else Act.buy

/-- The untouched output row for a bar: Position, P&L and Closed keep their
initialisation values 0.0 / 0.0 / 0. -/
def zeroRow (hs : Bool) (m : ℤ) (b : Bar) : Row :=
  { datetime := b.datetime, close := b.close, signal := sigOut hs m b.signal,
    position := 0, pnl := 0, closed := false }

/-- `in_drawdown = ((price_now - entry_price) * side) < 0 if entry_price is
not None else False`. -/
def in_dd_check (pn : ℚ) (st : MState) : Bool :=
  match st.entry with
  | some e => decide ((pn - e) * (st.side : ℚ) < 0)
  | none => false

/-- The flip-handling block at the end of the loop body (`# Flip handling`):
given the state after open/manage, the row written so far and the fills
emitted so far, apply the opposite-signal close-and-reopen when it fires. -/
def flipStep (cof : Bool) (base_lot : ℚ) (pn : ℚ) (sig : ℤ) (st : MState)
    (row : Row) (fills : List Fill) : MState × Row × List Fill :=
  if st.side ≠ 0 ∧ sig ≠ 0 ∧ sig ≠ st.side then
    if cof || !(in_dd_check pn st) then
      (⟨sig, base_lot, some pn⟩,
       { row with closed := true, position := base_lot * (sig : ℚ) },
       fills ++
        [⟨row.datetime, closeActOf st.side, some pn, 0,
          if cof then Note.flipClose else Note.flipCloseNoDD⟩,
         ⟨row.datetime, actOf sig, some pn, base_lot * (sig : ℚ), Note.flipOpen⟩])
    else (st, row, fills)
  else (st, row, fills)

/-- The `# Manage open trade` block followed by flip handling, applied to the
state `stO` that results from the `# Open when flat` block.  `rowZ` is the
still-untouched output row for the current bar, `fillsO` the fills the open
block emitted. -/
def afterOpen (base_lot multiplier step take_profit : ℚ) (cof : Bool)
    (rowZ : Row) (pp pn : ℚ) (sig : ℤ) (stO : MState) (fillsO : List Fill) :
    MState × Row × List Fill :=
  match stO.entry with
  | none => flipStep cof base_lot pn sig stO rowZ fillsO
  | some e =>
    if stO.side = 0 then flipStep cof base_lot pn sig stO rowZ fillsO
    else
      let bar_pnl := (pn - pp) * (stO.side : ℚ) * stO.lot
      if (pn - e) * (stO.side : ℚ) ≥ take_profit then
        (⟨0, 0, none⟩,
         { rowZ with pnl := bar_pnl, position := 0, closed := true },
         fillsO ++
          [⟨rowZ.datetime, closeActOf stO.side, some pn, 0, Note.tpClose take_profit⟩])
      else if |pn - e| ≥ step then
        let newLot := if stO.lot > 0 then stO.lot * multiplier else base_lot
        flipStep cof base_lot pn sig ⟨stO.side, newLot, some pn⟩
          { rowZ with pnl := bar_pnl, position := stO.lot * (stO.side : ℚ) }
          (fillsO ++
            [⟨rowZ.datetime, actOf stO.side, some pn, newLot * (stO.side : ℚ),
              Note.add multiplier⟩])
      else
        flipStep cof base_lot pn sig stO
          { rowZ with pnl := bar_pnl, position := stO.lot * (stO.side : ℚ) } fillsO

/-- One iteration of the `for i in range(1, len(df))` loop of
`martingale_strategy`: `prev` is bar `i-1`, `cur` is bar `i`.  A bar with a
missing price on either side is skipped (state and row untouched); reading a
missing signal raises. -/
def stepBar (cfg : MCfg) (hs : Bool) (prev cur : Bar) (st : MState) :
    Except Unit (MState × Row × List Fill) :=
  match prev.close, cur.close with
  | some pp, some pn =>
    match readSig hs (sigMult cfg) prev.signal with
    | Except.error e => Except.error e
    | Except.ok sig =>
      if st.side = 0 ∧ sig ≠ 0 then
        Except.ok (afterOpen cfg.base_lot cfg.multiplier cfg.step cfg.take_profit
          cfg.close_on_flip (zeroRow hs (sigMult cfg) cur) pp pn sig
          ⟨sig, cfg.base_lot, some pp⟩
          [⟨prev.datetime, actOf sig, some pp, cfg.base_lot * (sig : ℚ), Note.openPos⟩])
      else
        Except.ok (afterOpen cfg.base_lot cfg.multiplier cfg.step cfg.take_profit
          cfg.close_on_flip (zeroRow hs (sigMult cfg) cur) pp pn sig st [])
  | _, _ => Except.ok (st, zeroRow hs (sigMult cfg) cur, [])

/-- The whole loop of `martingale_strategy`, threading the state and
collecting one output row per bar (bars 1..n-1) plus the emitted fills. -/
def mLoop (cfg : MCfg) (hs : Bool) : Bar → List Bar → MState →
    Except Unit (List Row × MState × List Fill)
  | _, [], st => Except.ok ([], st, [])
  | prev, cur :: rest, st =>
    match stepBar cfg hs prev cur st with
    | Except.error e => Except.error e
    | Except.ok (st1, row, fills1) =>
      match mLoop cfg hs cur rest st1 with
      | Except.error e => Except.error e
      | Except.ok (rows, stF, fills2) => Except.ok (row :: rows, stF, fills1 ++ fills2)

/-- The `# Force close at end of session` block: the final row gets
`Position := 0` and `Closed := 1`. -/
def setLastForceClosed : List Row → List Row
  | [] => []
  | [r] => [{ r with position := 0, closed := true }]
  | r :: r2 :: rs => r :: setLastForceClosed (r2 :: rs)

/-- `martingale_strategy(df, base_lot, multiplier, step, take_profit,
reverse_signals, close_on_flip)` from src/strategies.py.  `hs` says whether
the input has a Signal column.  Returns the output rows (the mutated
DataFrame) and the fills ledger, or an error when `int(...)` raised. -/
def martingale_strategy (cfg : MCfg) (hs : Bool) (bars : List Bar) :
    Except Unit (List Row × List Fill) :=
  match bars with
  | [] => Except.ok ([], [])
  | b0 :: rest =>
    match mLoop cfg hs b0 rest ⟨0, 0, none⟩ with
    | Except.error e => Except.error e
    | Except.ok (rows, stF, fills) =>
      let allRows := zeroRow hs (sigMult cfg) b0 :: rows
      if stF.side ≠ 0 ∧ stF.entry.isSome then
        let lastBar := rest.getLastD b0
        Except.ok (setLastForceClosed allRows,
          fills ++ [⟨lastBar.datetime, closeActOf stF.side, lastBar.close, 0,
                     Note.sessionClose⟩])
      else Except.ok (allRows, fills)

/-- The untouched output row of `execute_signals` for a bar (its Signal
column is left as it came in). -/
def zeroRowE (b : Bar) : Row :=
  { datetime := b.datetime, close := b.close, signal := b.signal,
    position := 0, pnl := 0, closed := false }

/-- One iteration of the `for i in range(1, len(df))` loop of
`execute_signals`; the state is the `side_prev` variable. -/
def eStep (psize : ℚ) (foz : Bool) (hs : Bool) (prev cur : Bar) (sd : ℤ) :
    Except Unit (ℤ × Row) :=
  match prev.close, cur.close with
  | some pp, some pn =>
    match readSig hs 1 prev.signal with
    | Except.error e => Except.error e
    | Except.ok sig =>
      let target := if sig ≠ 0 ∨ foz then sig else sd
      Except.ok (target,
        { datetime := cur.datetime, close := cur.close, signal := cur.signal,
          position := (target : ℚ) * psize,
          pnl := if sd ≠ 0 then (pn - pp) * (sd : ℚ) * psize else 0,
          closed := decide (sd ≠ 0 ∧ target ≠ sd) })
  | _, _ => Except.ok (sd, zeroRowE cur)

/-- The whole loop of `execute_signals`. -/
def eLoop (psize : ℚ) (foz : Bool) (hs : Bool) : Bar → List Bar → ℤ →
    Except Unit (List Row × ℤ)
  | _, [], sd => Except.ok ([], sd)
  | prev, cur :: rest, sd =>
    match eStep psize foz hs prev cur sd with
    | Except.error e => Except.error e
    | Except.ok (sd1, row) =>
      match eLoop psize foz hs cur rest sd1 with
      | Except.error e => Except.error e
      | Except.ok (rows, sdF) => Except.ok (row :: rows, sdF)

/-- The `# Force-close on final bar` block of `execute_signals`: only the
Closed flag of the final row is set. -/
def setLastClosed : List Row → List Row
  | [] => []
  | [r] => [{ r with closed := true }]
  | r :: r2 :: rs => r :: setLastClosed (r2 :: rs)

/-- `execute_signals(df, position_size, flat_on_zero)` from
src/strategies.py. -/
def execute_signals (psize : ℚ) (foz : Bool) (hs : Bool) (bars : List Bar) :
    Except Unit (List Row) :=
  match bars with
  | [] => Except.ok []
  | b0 :: rest =>
    match eLoop psize foz hs b0 rest 0 with
    | Except.error e => Except.error e
    | Except.ok (rows, sdF) =>
      let allRows := zeroRowE b0 :: rows
      Except.ok (if sdF ≠ 0 then setLastClosed allRows else allRows)

/-- One reconstructed round-trip trade (a row of trades_summary.csv). -/
structure Trade where
  entryTime : ℤ
  exitTime : ℤ
  isLong : Bool
  tradePnL : ℚ
  deriving DecidableEq, Repr

/-- The reconstructor's loop state: `in_trade` together with `entry_i`'s
datetime, `entry_pos`, and the running P&L sum of the bars strictly after
entry. -/
inductive ExSt where
  | flat
  | inTrade (entryTime : ℤ) (entryPos : ℚ) (acc : ℚ)
  deriving DecidableEq, Repr

/-- The scan of `_extract_trades_from_positions`: `prevPos` is `pos[i-1]`
(seeded with 0 so the `i == 0` entry test matches), `lastDt` the datetime of
the previously visited row (so the end-of-list force close can use the last
row's datetime). -/
def exGo : List Row → ℚ → ℤ → ExSt → List Trade
  | [], _, _, ExSt.flat => []
  | [], _, lastDt, ExSt.inTrade e p acc => [⟨e, lastDt, decide (p > 0), acc⟩]
  | r :: rest, prevPos, _, ExSt.flat =>
    if r.position ≠ 0 ∧ prevPos = 0 then
      exGo rest r.position r.datetime (ExSt.inTrade r.datetime r.position 0)
    else exGo rest r.position r.datetime ExSt.flat
  | r :: rest, _, _, ExSt.inTrade e p acc =>
    let acc2 := acc + r.pnl
    if r.closed then
      if r.position ≠ 0 then
        ⟨e, r.datetime, decide (p > 0), acc2⟩ ::
          exGo rest r.position r.datetime (ExSt.inTrade r.datetime r.position 0)
      else
        ⟨e, r.datetime, decide (p > 0), acc2⟩ :: exGo rest r.position r.datetime ExSt.flat
    else exGo rest r.position r.datetime (ExSt.inTrade e p acc2)

/-- `_extract_trades_from_positions(df)` from src/backtest.py. -/
def extract_trades_from_positions (rows : List Row) : List Trade :=
  exGo rows 0 0 ExSt.flat

/-- `sum(pnl over all bars)`. -/
def rowsPnl (rows : List Row) : ℚ :=
  (rows.map Row.pnl).sum

/-- `sum(realized_pnl over all reconstructed trades)`. -/
def tradesPnl (ts : List Trade) : ℚ :=
  (ts.map Trade.tradePnL).sum

/-! Concrete inputs used by the counterexample and witness theorems. -/

/-- Configuration base_lot=1, multiplier=2, step=1000, take_profit=5,
reverse_signals=false, close_on_flip=false. -/
def c1cfg : MCfg := ⟨1, 2, 1000, 5, false, false⟩

/-- Bars with closes 100, 101, 110 and signal +1 on the first bar. -/
def c1bars : List Bar :=
  [⟨0, some 100, some 1⟩, ⟨1, some 101, some 0⟩, ⟨2, some 110, some 0⟩]

/-- Same as `c1cfg` but with a non-positive base_lot. -/
def c2cfg : MCfg := ⟨-1, 2, 1000, 5, false, false⟩

/-- Configuration base_lot=1, multiplier=2, step=5, take_profit=100,
close_on_flip=false. -/
def c4cfg : MCfg := ⟨1, 2, 5, 100, false, false⟩

/-- Previous bar: close 100, lagged signal -1 (opposite to the held long). -/
def c4prev : Bar := ⟨0, some 100, some (-1)⟩

/-- Current bar: close 95 (5 points against the long entry at 100). -/
def c4cur : Bar := ⟨1, some 95, some 0⟩

/-- A held long of one lot entered at 100. -/
def c4st : MState := ⟨1, 1, some 100⟩

/-- Bars: open on a +1 signal, take-profit on bar 2, then two flat bars. -/
def c5bars : List Bar :=
  [⟨0, some 100, some 1⟩, ⟨1, some 100, some 0⟩, ⟨2, some 110, some 0⟩,
   ⟨3, some 110, some 0⟩, ⟨4, some 110, some 0⟩]

/-- Bars: open on a +1 signal, then a final bar with a missing close. -/
def c6bars : List Bar :=
  [⟨0, some 100, some 1⟩, ⟨1, some 100, some 0⟩, ⟨2, none, some 0⟩]

/-- Bars whose first signal cell is missing while its prices are valid. -/
def c8bars : List Bar := [⟨0, some 100, none⟩, ⟨1, some 100, some 0⟩]

/-- C1 (code bug): running the martingale engine on closes 100, 101, 110 with
a +1 signal on bar 0 (base_lot=1, take_profit=5) books P&L of 1 on the entry
bar and 9 on the take-profit bar, so `sum(pnl over all bars) = 10`; the
reconstructor sums P&L only from the bar after entry, so the single
reconstructed trade carries `realized_pnl = 9`.  The claimed conservation
`sum(pnl) = sum(realized_pnl)` fails: 10 ≠ 9. -/
theorem c1_conservation_violated :
    (martingale_strategy c1cfg true c1bars).toOption.map
        (fun o => (rowsPnl o.1, tradesPnl (extract_trades_from_positions o.1)))
      = some (10, 9) ∧ (10 : ℚ) ≠ 9 := by decide

/-- C2 counterexample: with `base_lot = -1 ≤ 0` the engine raises nothing —
the run succeeds, bars are processed and two fills are emitted, refuting
"raises a configuration error before any bar is processed, and produces no
partial results". -/
theorem c2_no_validation_counterexample :
    c2cfg.base_lot ≤ 0 ∧
    (martingale_strategy c2cfg true c1bars).toOption.map
        (fun o => o.2.length) = some 2 := by decide

/-- C4 counterexample: held long one lot from 100 (`c4st`), lagged signal -1
(opposite, non-zero), close 95 so the position is in drawdown
((95-100)*1 < 0) and `close_on_flip = false` — yet the bar emits three fills
(a martingale add, then a flip close and flip open, because the add
re-anchored the entry to 95 and cleared the drawdown test), the bar's
position becomes -1 and the state flips short: not zero fills, and the
position is not unchanged. -/
theorem c4_flip_suppression_counterexample :
    c4cfg.close_on_flip = false ∧ c4st.side = 1 ∧ c4st.entry = some 100 ∧
    c4prev.signal = some (-1) ∧ c4cur.close = some 95 ∧
    ((95 : ℚ) - 100) * 1 < 0 ∧
    (stepBar c4cfg true c4prev c4cur c4st).toOption.map
        (fun o => (o.1, o.2.1.position, o.2.2.length))
      = some (⟨-1, 1, some 95⟩, -1, 3) := by decide

/-- C5 counterexample: a run whose position opens on bar 1 (first fill is an
`Open`) and take-profit-closes on bar 2, followed by flat bars: the final
bar's `closed` flag is `false`, refuting "the final bar's closed flag is true
if any position was ever opened". -/
theorem c5_final_closed_counterexample :
    (martingale_strategy c1cfg true c5bars).toOption.map
        (fun o => (o.2.head?.map Fill.note, o.1.getLast?.map Row.closed))
      = some (some Note.openPos, some false) := by decide

/-- C6 counterexample: the final bar has a missing close while a position is
open; the end-of-session force close still marks that bar `closed = true` and
emits a `Session close` fill (at the missing price), refuting "still appears
in the output sequence with zeroed position/pnl/closed fields, and emits no
fill" for that bar. -/
theorem c6_skipped_bar_counterexample :
    (c6bars.getLast?).map Bar.close = some none ∧
    (martingale_strategy c1cfg true c6bars).toOption.map
        (fun o => (o.1.getLast?.map Row.closed, o.2.getLast?.map Fill.note))
      = some (some true, some Note.sessionClose) := by decide

/-- C8 counterexample: a missing signal value on a bar with valid adjacent
prices makes both engines raise (`int(NaN)`), refuting "treat that bar's
signal as 0 and complete the run normally". -/
theorem c8_missing_signal_counterexample :
    (martingale_strategy c1cfg true c8bars).toOption = none ∧
    (execute_signals 1 true true c8bars).toOption = none := by decide

/-- C3 (confirmed): on a bar where the position is open (side ≠ 0, entry
present) and both the take-profit condition `(close[i]-entry)*side ≥
take_profit` and the add condition `|close[i]-entry| ≥ step` hold, the loop
body emits exactly one fill — the take-profit close — marks the bar
`closed = true` with position 0, flattens the state, and emits no Add fill
(`continue` skips the add and flip blocks). -/
theorem c3_take_profit_precedence (cfg : MCfg) (hs : Bool) (prev cur : Bar)
    (st : MState) (pp pn e : ℚ) (sig : ℤ)
    (hp : prev.close = some pp) (hn : cur.close = some pn)
    (hsig : readSig hs (sigMult cfg) prev.signal = Except.ok sig)
    (hside : st.side ≠ 0) (hentry : st.entry = some e)
    (htp : (pn - e) * (st.side : ℚ) ≥ cfg.take_profit)
    (hadd : |pn - e| ≥ cfg.step) :
    stepBar cfg hs prev cur st =
      Except.ok (⟨0, 0, none⟩,
        { datetime := cur.datetime, close := cur.close,
          signal := sigOut hs (sigMult cfg) cur.signal,
          position := 0, pnl := (pn - pp) * (st.side : ℚ) * st.lot, closed := true },
        [⟨cur.datetime, closeActOf st.side, some pn, 0, Note.tpClose cfg.take_profit⟩]) := by
  simp only [stepBar, hp, hn, hsig]
  rw [if_neg (fun h => hside h.1)]
  simp only [afterOpen, hentry, if_neg hside, if_pos htp, zeroRow, hn, List.nil_append]

/-- Concrete configuration for the C3 witness: step 5 and take_profit 5. -/
def c3wcfg : MCfg := ⟨1, 2, 5, 5, false, false⟩

/-- C3 witness bar i-1. -/
def c3wprev : Bar := ⟨0, some 100, some 0⟩

/-- C3 witness bar i: close 110, ten points above the entry at 100, so both
the take-profit (10 ≥ 5) and the add (|10| ≥ 5) thresholds are crossed. -/
def c3wcur : Bar := ⟨1, some 110, some 0⟩

/-- C3 witness state: long one lot from 100. -/
def c3wst : MState := ⟨1, 1, some 100⟩

/-- C3 witness: the theorem applied at the concrete bar above. -/
theorem c3_take_profit_precedence_witness :
    ((110 : ℚ) - 100) * ((1 : ℤ) : ℚ) ≥ c3wcfg.take_profit ∧
    |(110 : ℚ) - 100| ≥ c3wcfg.step ∧
    stepBar c3wcfg true c3wprev c3wcur c3wst =
      Except.ok (⟨0, 0, none⟩,
        { datetime := 1, close := some 110, signal := some 0,
          position := 0, pnl := ((110 : ℚ) - 100) * ((1 : ℤ) : ℚ) * 1, closed := true },
        [⟨1, closeActOf 1, some 110, 0, Note.tpClose c3wcfg.take_profit⟩]) :=
  ⟨by decide, by decide,
   c3_take_profit_precedence c3wcfg true c3wprev c3wcur c3wst 100 110 100 0
     rfl rfl rfl (by decide) rfl (by decide) (by decide)⟩

/-- C10 (confirmed): when the state is flat and the lagged signal is non-zero
(with valid prices), the loop body opens at `entry_price = close[i-1]` (the
Open fill records price `pp`), books `pnl = (close[i]-close[i-1])*side*
base_lot` on the same bar, and evaluates the take-profit check against that
entry: when `(close[i]-close[i-1])*side ≥ take_profit` the position opens and
take-profit-closes on the same bar, with the bar marked closed and
position 0. -/
theorem c10_open_and_same_bar_tp (cfg : MCfg) (hs : Bool) (prev cur : Bar)
    (st : MState) (pp pn : ℚ) (sig : ℤ)
    (hp : prev.close = some pp) (hn : cur.close = some pn)
    (hsig : readSig hs (sigMult cfg) prev.signal = Except.ok sig)
    (hflat : st.side = 0) (hsig0 : sig ≠ 0) :
    ∃ st2 row fills, stepBar cfg hs prev cur st = Except.ok (st2, row, fills) ∧
      fills.head? = some ⟨prev.datetime, actOf sig, some pp,
        cfg.base_lot * (sig : ℚ), Note.openPos⟩ ∧
      row.pnl = (pn - pp) * (sig : ℚ) * cfg.base_lot ∧
      ((pn - pp) * (sig : ℚ) ≥ cfg.take_profit →
        row.closed = true ∧ row.position = 0 ∧ st2 = ⟨0, 0, none⟩ ∧
        fills = [⟨prev.datetime, actOf sig, some pp, cfg.base_lot * (sig : ℚ),
                  Note.openPos⟩,
                 ⟨cur.datetime, closeActOf sig, some pn, 0,
                  Note.tpClose cfg.take_profit⟩]) := by
  simp only [stepBar, hp, hn, hsig, if_pos (And.intro hflat hsig0), afterOpen]
  rw [if_neg hsig0]
  by_cases htp : (pn - pp) * (sig : ℚ) ≥ cfg.take_profit
  · rw [if_pos htp]
    exact ⟨_, _, _, rfl, rfl, rfl, fun _ => ⟨rfl, rfl, rfl, rfl⟩⟩
  · rw [if_neg htp]
    by_cases hst : |pn - pp| ≥ cfg.step
    · rw [if_pos hst]
      simp only [flipStep]
      rw [if_neg (fun h => h.2.2 rfl)]
      exact ⟨_, _, _, rfl, rfl, rfl, fun h => absurd h htp⟩
    · rw [if_neg hst]
      simp only [flipStep]
      rw [if_neg (fun h => h.2.2 rfl)]
      exact ⟨_, _, _, rfl, rfl, rfl, fun h => absurd h htp⟩

/-- C10 witness previous bar: close 100, lagged signal +1. -/
def c10wprev : Bar := ⟨0, some 100, some 1⟩

/-- C10 witness current bar: close 110, ten points above the 100 entry. -/
def c10wcur : Bar := ⟨1, some 110, some 0⟩

/-- C10 witness: the theorem applied at a concrete flat state and bar where
the same-bar take-profit fires. -/
theorem c10_open_and_same_bar_tp_witness :
    (⟨0, 0, none⟩ : MState).side = 0 ∧ (1 : ℤ) ≠ 0 ∧
    (∃ st2 row fills,
      stepBar c3wcfg true c10wprev c10wcur ⟨0, 0, none⟩ = Except.ok (st2, row, fills) ∧
      fills.head? = some ⟨0, actOf 1, some 100, c3wcfg.base_lot * ((1 : ℤ) : ℚ),
        Note.openPos⟩ ∧
      row.pnl = ((110 : ℚ) - 100) * ((1 : ℤ) : ℚ) * c3wcfg.base_lot ∧
      (((110 : ℚ) - 100) * ((1 : ℤ) : ℚ) ≥ c3wcfg.take_profit →
        row.closed = true ∧ row.position = 0 ∧ st2 = ⟨0, 0, none⟩ ∧
        fills = [⟨0, actOf 1, some 100, c3wcfg.base_lot * ((1 : ℤ) : ℚ), Note.openPos⟩,
                 ⟨1, closeActOf 1, some 110, 0, Note.tpClose c3wcfg.take_profit⟩])) :=
  ⟨rfl, by decide,
   c10_open_and_same_bar_tp c3wcfg true c10wprev c10wcur ⟨0, 0, none⟩ 100 110 1
     rfl rfl rfl rfl (by decide)⟩

/-- C4 amended (the amendment adds: take_profit positive and the adverse
excursion smaller than step, so that neither the take-profit nor the
martingale add fires): with `close_on_flip = false`, an open position
(side ≠ 0, entry present), a non-zero lagged signal opposite to the held
side, and the position in drawdown `(close[i]-entry)*side < 0`, the loop body
emits zero fills, leaves the state unchanged, and writes the bar's position
as the held `lot * side` (the same exposure the prior processed bar showed). -/
theorem c4_drawdown_flip_suppressed (cfg : MCfg) (hs : Bool) (prev cur : Bar)
    (st : MState) (pp pn e : ℚ) (sig : ℤ)
    (hp : prev.close = some pp) (hn : cur.close = some pn)
    (hsig : readSig hs (sigMult cfg) prev.signal = Except.ok sig)
    (hside : st.side ≠ 0) (hentry : st.entry = some e)
    (hsig0 : sig ≠ 0) (hopp : sig ≠ st.side)
    (hdd : (pn - e) * (st.side : ℚ) < 0)
    (hstep : |pn - e| < cfg.step)
    (htp : 0 < cfg.take_profit)
    (hcof : cfg.close_on_flip = false) :
    stepBar cfg hs prev cur st =
      Except.ok (st,
        { datetime := cur.datetime, close := cur.close,
          signal := sigOut hs (sigMult cfg) cur.signal,
          position := st.lot * (st.side : ℚ),
          pnl := (pn - pp) * (st.side : ℚ) * st.lot, closed := false }, []) := by
  simp only [stepBar, hp, hn, hsig]
  rw [if_neg (fun h => hside h.1)]
  simp only [afterOpen, hentry, if_neg hside,
    if_neg (not_le.mpr (lt_trans hdd htp)), if_neg (not_le.mpr hstep)]
  simp [flipStep, in_dd_check, if_pos (And.intro hside (And.intro hsig0 hopp)),
    hentry, hcof, decide_eq_true hdd, zeroRow, hn]

/-- C4 witness state: long one lot from 100. -/
def c4wst : MState := ⟨1, 1, some 100⟩

/-- C4 witness: close 97 against a long from 100 with step 5 — in drawdown,
opposite signal -1, no add triggered, and the flip is suppressed. -/
theorem c4_drawdown_flip_suppressed_witness :
    ((97 : ℚ) - 100) * ((1 : ℤ) : ℚ) < 0 ∧ |(97 : ℚ) - 100| < c4cfg.step ∧
    stepBar c4cfg true ⟨0, some 100, some (-1)⟩ ⟨1, some 97, some 0⟩ c4wst =
      Except.ok (c4wst,
        { datetime := 1, close := some 97, signal := some 0,
          position := c4wst.lot * ((1 : ℤ) : ℚ),
          pnl := ((97 : ℚ) - 100) * ((1 : ℤ) : ℚ) * c4wst.lot, closed := false }, []) :=
  ⟨by decide, by decide,
   c4_drawdown_flip_suppressed c4cfg true ⟨0, some 100, some (-1)⟩ ⟨1, some 97, some 0⟩
     c4wst 100 97 100 (-1) rfl rfl (by simp [readSig, sigMult, c4cfg]) (by decide) rfl
     (by decide) (by decide)
     (by decide) (by decide) (by decide) rfl⟩

/-- C6 amended (the amendment removes the final bar from the claim's scope:
the end-of-session force close may still mark a final missing-price bar
closed and emit a Session close fill, as the counterexample shows): a bar
with a missing current or previous close is skipped by the loop body of both
engines — state unchanged, no fill, and the bar's output row keeps its zeroed
position/pnl/closed initialisation. -/
theorem c6_missing_price_bar_skipped (cfg : MCfg) (hs : Bool) (psize : ℚ)
    (foz : Bool) (prev cur : Bar) (st : MState) (sd : ℤ)
    (hmiss : prev.close = none ∨ cur.close = none) :
    stepBar cfg hs prev cur st = Except.ok (st, zeroRow hs (sigMult cfg) cur, []) ∧
    eStep psize foz hs prev cur sd = Except.ok (sd, zeroRowE cur) := by
  rcases hmiss with h | h
  · constructor <;> simp only [stepBar, eStep, h]
  · cases hp : prev.close <;> constructor <;> simp only [stepBar, eStep, h, hp]

/-- C6 witness: a concrete skipped bar (previous close present, current close
missing) in both engines. -/
theorem c6_missing_price_bar_skipped_witness :
    (⟨1, none, some 0⟩ : Bar).close = none ∧
    stepBar c1cfg true ⟨0, some 100, some 1⟩ ⟨1, none, some 0⟩ ⟨1, 1, some 100⟩ =
      Except.ok (⟨1, 1, some 100⟩, zeroRow true (sigMult c1cfg) ⟨1, none, some 0⟩, []) ∧
    eStep 1 true true ⟨0, some 100, some 1⟩ ⟨1, none, some 0⟩ 1 =
      Except.ok (1, zeroRowE ⟨1, none, some 0⟩) :=
  ⟨rfl,
   c6_missing_price_bar_skipped c1cfg true 1 true ⟨0, some 100, some 1⟩
     ⟨1, none, some 0⟩ ⟨1, 1, some 100⟩ 1 (Or.inr rfl)⟩

/-- A scan that is inside a trade always emits that trade first: the head of
its output carries the stored entry time and direction (every open trade is
eventually closed, by a `closed` flag or by the end-of-list force close). -/
lemma exGo_inTrade_head (l : List Row) : ∀ (prevPos : ℚ) (lastDt e : ℤ) (p acc : ℚ),
    ∃ x tl, exGo l prevPos lastDt (ExSt.inTrade e p acc) = x :: tl ∧
      x.entryTime = e ∧ x.isLong = decide (p > 0) := by
  induction l with
  | nil => exact fun prevPos lastDt e p acc => ⟨_, _, rfl, rfl, rfl⟩
  | cons r rest ih =>
    intro prevPos lastDt e p acc
    simp only [exGo]
    by_cases hc : r.closed = true
    · rw [if_pos hc]
      by_cases hp0 : r.position ≠ 0
      · rw [if_pos hp0]
        exact ⟨_, _, rfl, rfl, rfl⟩
      · rw [if_neg hp0]
        exact ⟨_, _, rfl, rfl, rfl⟩
    · rw [if_neg hc]
      exact ih r.position r.datetime e p (acc + r.pnl)

/-- C9 (confirmed): when the scan of `_extract_trades_from_positions` reaches
a flip bar — a bar with `closed = true` and a non-zero position — while a
trade is in progress (state `inTrade e p acc`), the output continues with two
trades: the trade in progress exits at that bar's datetime, and the next
trade in the list enters at that same datetime. -/
theorem c9_flip_bar_two_trades (r : Row) (rest : List Row) (prevPos : ℚ)
    (lastDt e : ℤ) (p acc : ℚ)
    (hc : r.closed = true) (hp : r.position ≠ 0) :
    ∃ t2 tl, exGo (r :: rest) prevPos lastDt (ExSt.inTrade e p acc) =
        ⟨e, r.datetime, decide (p > 0), acc + r.pnl⟩ :: t2 :: tl ∧
      t2.entryTime = r.datetime := by
  obtain ⟨x, tl, hx, hxe, _⟩ :=
    exGo_inTrade_head rest r.position r.datetime r.datetime r.position 0
  refine ⟨x, tl, ?_, hxe⟩
  simp only [exGo]
  rw [if_pos hc, if_pos hp, hx]

/-- C9 witness flip row: closed with a still-open position of 2. -/
def c9wrow : Row := ⟨5, some 100, some 0, 2, 7, true⟩

/-- C9 witness: the theorem applied at a concrete flip bar. -/
theorem c9_flip_bar_two_trades_witness :
    c9wrow.closed = true ∧ c9wrow.position ≠ 0 ∧
    (∃ t2 tl, exGo [c9wrow] 1 0 (ExSt.inTrade 3 1 4) =
        ⟨3, c9wrow.datetime, decide ((1 : ℚ) > 0), (4 : ℚ) + c9wrow.pnl⟩ :: t2 :: tl ∧
      t2.entryTime = c9wrow.datetime) :=
  ⟨rfl, by decide, c9_flip_bar_two_trades c9wrow [] 1 0 3 1 4 rfl (by decide)⟩

/-- Some consecutive bar pair has both prices valid but the lagged signal
cell missing: the loop bodies of both engines reach `int(NaN)` there. -/
def hasFail : Bar → List Bar → Bool
  | _, [] => false
  | prev, cur :: rest =>
    (prev.close.isSome && cur.close.isSome && prev.signal.isNone) || hasFail cur rest

/-- A bar with valid prices on both sides but a missing lagged signal makes
the martingale loop body raise. -/
lemma stepBar_missing_signal (cfg : MCfg) (prev cur : Bar) (st : MState)
    (h1 : prev.close.isSome = true) (h2 : cur.close.isSome = true)
    (h3 : prev.signal = none) :
    stepBar cfg true prev cur st = Except.error () := by
  obtain ⟨pp, hp⟩ := Option.isSome_iff_exists.mp h1
  obtain ⟨pn, hn⟩ := Option.isSome_iff_exists.mp h2
  simp [stepBar, hp, hn, h3, readSig]

/-- Same for the plain execution engine's loop body. -/
lemma eStep_missing_signal (psize : ℚ) (foz : Bool) (prev cur : Bar) (sd : ℤ)
    (h1 : prev.close.isSome = true) (h2 : cur.close.isSome = true)
    (h3 : prev.signal = none) :
    eStep psize foz true prev cur sd = Except.error () := by
  obtain ⟨pp, hp⟩ := Option.isSome_iff_exists.mp h1
  obtain ⟨pn, hn⟩ := Option.isSome_iff_exists.mp h2
  simp [eStep, hp, hn, h3, readSig]

/-- The raise aborts the whole martingale loop. -/
lemma mLoop_missing_signal (cfg : MCfg) : ∀ (l : List Bar) (prev : Bar) (st : MState),
    hasFail prev l = true → mLoop cfg true prev l st = Except.error () := by
  intro l
  induction l with
  | nil => intro prev st h; simp [hasFail] at h
  | cons cur rest ih =>
    intro prev st h
    simp only [hasFail, Bool.or_eq_true, Bool.and_eq_true] at h
    rcases h with ⟨⟨h1, h2⟩, h3⟩ | h
    · simp only [mLoop,
        stepBar_missing_signal cfg prev cur st h1 h2 (Option.isNone_iff_eq_none.mp h3)]
    · simp only [mLoop]
      cases hstep : stepBar cfg true prev cur st with
      | error e => cases e; rfl
      | ok out =>
        obtain ⟨st1, row, fills⟩ := out
        simp only [ih cur st1 h]

/-- The raise aborts the whole plain-execution loop. -/
lemma eLoop_missing_signal (psize : ℚ) (foz : Bool) :
    ∀ (l : List Bar) (prev : Bar) (sd : ℤ),
    hasFail prev l = true → eLoop psize foz true prev l sd = Except.error () := by
  intro l
  induction l with
  | nil => intro prev sd h; simp [hasFail] at h
  | cons cur rest ih =>
    intro prev sd h
    simp only [hasFail, Bool.or_eq_true, Bool.and_eq_true] at h
    rcases h with ⟨⟨h1, h2⟩, h3⟩ | h
    · simp only [eLoop,
        eStep_missing_signal psize foz prev cur sd h1 h2 (Option.isNone_iff_eq_none.mp h3)]
    · simp only [eLoop]
      cases hstep : eStep psize foz true prev cur sd with
      | error e => cases e; rfl
      | ok out =>
        obtain ⟨sd1, row⟩ := out
        simp only [ih cur sd1 h]

/-- C8 amended (the amendment replaces "treated as 0, run completes" by what
the code does: only a wholly absent Signal column reads as all-zero; a
missing individual signal value that is read — one with valid prices on the
bar pair around it — makes `int(NaN)` raise, aborting the run of either
engine with no output at all). -/
theorem c8_missing_signal_aborts (cfg : MCfg) (psize : ℚ) (foz : Bool)
    (b0 : Bar) (rest : List Bar) (h : hasFail b0 rest = true) :
    martingale_strategy cfg true (b0 :: rest) = Except.error () ∧
    execute_signals psize foz true (b0 :: rest) = Except.error () := by
  constructor
  · simp only [martingale_strategy, mLoop_missing_signal cfg rest b0 ⟨0, 0, none⟩ h]
  · simp only [execute_signals, eLoop_missing_signal psize foz rest b0 0 h]

/-- C8 witness: on `c8bars` (missing signal on bar 0, valid prices) both
engines error out. -/
theorem c8_missing_signal_aborts_witness :
    hasFail ⟨0, some 100, none⟩ [⟨1, some 100, some 0⟩] = true ∧
    martingale_strategy c1cfg true c8bars = Except.error () ∧
    execute_signals 1 true true c8bars = Except.error () :=
  ⟨by decide,
   c8_missing_signal_aborts c1cfg 1 true ⟨0, some 100, none⟩ [⟨1, some 100, some 0⟩]
     (by decide)⟩

/-- The martingale loop body never raises when the lagged signal cell is
present. -/
lemma stepBar_ok_of_isSome (cfg : MCfg) (prev cur : Bar) (st : MState)
    (h : prev.signal.isSome = true) :
    ∃ out, stepBar cfg true prev cur st = Except.ok out := by
  obtain ⟨v, hv⟩ := Option.isSome_iff_exists.mp h
  cases hp : prev.close with
  | none => exact ⟨_, by simp only [stepBar, hp]; rfl⟩
  | some pp =>
    cases hn : cur.close with
    | none => exact ⟨_, by simp only [stepBar, hp, hn]; rfl⟩
    | some pn =>
      by_cases hcond : st.side = 0 ∧ v * sigMult cfg ≠ 0
      · exact ⟨_, by simp only [stepBar, hp, hn, readSig, hv, if_true, if_pos hcond]; rfl⟩
      · exact ⟨_, by simp only [stepBar, hp, hn, readSig, hv, if_true, if_neg hcond]; rfl⟩

/-- The whole martingale loop succeeds when every signal cell is present. -/
lemma mLoop_ok_of_isSome (cfg : MCfg) : ∀ (l : List Bar) (prev : Bar) (st : MState),
    (∀ b ∈ prev :: l, b.signal.isSome = true) →
    ∃ out, mLoop cfg true prev l st = Except.ok out := by
  intro l
  induction l with
  | nil => exact fun prev st _ => ⟨_, rfl⟩
  | cons cur rest ih =>
    intro prev st h
    obtain ⟨⟨st1, row, fills1⟩, h1⟩ :=
      stepBar_ok_of_isSome cfg prev cur st (h prev (List.mem_cons_self prev _))
    obtain ⟨⟨rows, stF, fills2⟩, h2⟩ :=
      ih cur st1 (fun b hb => h b (List.mem_cons_of_mem prev hb))
    exact ⟨_, by simp only [mLoop, h1, h2]; rfl⟩

/-- C2 corrected (amended: the claim's configuration error does not exist —
the engine performs no validation at all; for every configuration, including
any with non-positive `base_lot`/`step`/`multiplier`/`take_profit`, the run
completes normally and returns bar outputs and fills whenever every signal
cell is present). -/
theorem c2_no_config_validation (cfg : MCfg) (bars : List Bar)
    (h : ∀ b ∈ bars, b.signal.isSome = true) :
    ∃ out, martingale_strategy cfg true bars = Except.ok out := by
  cases bars with
  | nil => exact ⟨_, rfl⟩
  | cons b0 rest =>
    obtain ⟨⟨rows, stF, fills⟩, hl⟩ := mLoop_ok_of_isSome cfg rest b0 ⟨0, 0, none⟩ h
    by_cases hc : stF.side ≠ 0 ∧ stF.entry.isSome
    · exact ⟨_, by rw [martingale_strategy, hl]; exact if_pos hc⟩
    · exact ⟨_, by rw [martingale_strategy, hl]; exact if_neg hc⟩

/-- C2 witness: the amended theorem applied at the non-positive
`base_lot = -1` configuration — the run succeeds. -/
theorem c2_no_config_validation_witness :
    c2cfg.base_lot ≤ 0 ∧ ∃ out, martingale_strategy c2cfg true c1bars = Except.ok out :=
  ⟨by decide, c2_no_config_validation c2cfg c1bars (by decide)⟩

/-- Turn a bar's signal cell into a literal -1 (same datetime and close). -/
def flipSig (b : Bar) : Bar :=
  { b with signal := some (-1) }

/-- The loop body treats reverse_signals=true on a +1 signal exactly as
reverse_signals=false on a -1 signal: both read an effective signal of -1,
and no other part of the body looks at the flag. -/
lemma stepBar_reverse (cfg : MCfg) (prev cur : Bar) (st : MState)
    (hp : prev.signal = some 1) (hc : cur.signal = some 1) :
    stepBar { cfg with reverse_signals := true } true prev cur st =
      stepBar { cfg with reverse_signals := false } true (flipSig prev) (flipSig cur) st := by
  cases hpc : prev.close <;> cases hcc : cur.close <;>
    simp [stepBar, flipSig, hpc, hcc, readSig, sigMult, hp, hc, sigOut, zeroRow]

/-- The whole loop is equal under the reversal correspondence. -/
lemma mLoop_reverse (cfg : MCfg) : ∀ (l : List Bar) (prev : Bar) (st : MState),
    (∀ b ∈ prev :: l, b.signal = some 1) →
    mLoop { cfg with reverse_signals := true } true prev l st =
      mLoop { cfg with reverse_signals := false } true (flipSig prev) (l.map flipSig) st := by
  intro l
  induction l with
  | nil => intro prev st _; rfl
  | cons cur rest ih =>
    intro prev st h
    simp only [List.map_cons, mLoop]
    rw [← stepBar_reverse cfg prev cur st (h prev (by simp)) (h cur (by simp))]
    cases hstep : stepBar { cfg with reverse_signals := true } true prev cur st with
    | error e => rfl
    | ok out =>
      obtain ⟨st1, row, fills⟩ := out
      have := ih cur st1 (fun b hb => h b (List.mem_cons_of_mem prev hb))
      simp only [this]

/-- `getLastD` commutes with the per-bar signal replacement. -/
lemma getLastD_map_flipSig (rest : List Bar) : ∀ b0 : Bar,
    (rest.map flipSig).getLastD (flipSig b0) = flipSig (rest.getLastD b0) := by
  induction rest with
  | nil => intro b0; rfl
  | cons c t ih => intro b0; simp only [List.map_cons, List.getLastD_cons, ih]

/-- C7 (confirmed): running the martingale engine with `reverse_signals=true`
on an all-+1 signal series produces exactly the same output — bar rows
(including the transformed Signal column) and fills ledger — as running it
with `reverse_signals=false` on the same prices with an all--1 signal
series. -/
theorem c7_reverse_equivalence (cfg : MCfg) (bars : List Bar)
    (h : ∀ b ∈ bars, b.signal = some 1) :
    martingale_strategy { cfg with reverse_signals := true } true bars =
      martingale_strategy { cfg with reverse_signals := false } true (bars.map flipSig) := by
  cases bars with
  | nil => rfl
  | cons b0 rest =>
    simp only [List.map_cons, martingale_strategy]
    rw [← mLoop_reverse cfg rest b0 ⟨0, 0, none⟩ h]
    cases hl : mLoop { cfg with reverse_signals := true } true b0 rest ⟨0, 0, none⟩ with
    | error e => rfl
    | ok out =>
      obtain ⟨rows, stF, fills⟩ := out
      have hz : zeroRow true (sigMult { cfg with reverse_signals := true }) b0 =
          zeroRow true (sigMult { cfg with reverse_signals := false }) (flipSig b0) := by
        simp [zeroRow, sigOut, sigMult, flipSig, h b0 (List.mem_cons_self b0 rest)]
      rw [getLastD_map_flipSig]
      simp only [hz, flipSig]

/-- C7 witness bars: three bars, all signals +1. -/
def c7wbars : List Bar :=
  [⟨0, some 100, some 1⟩, ⟨1, some 103, some 1⟩, ⟨2, some 99, some 1⟩]

/-- C7 witness: the equivalence applied at concrete all-+1 bars. -/
theorem c7_reverse_equivalence_witness :
    martingale_strategy { c1cfg with reverse_signals := true } true c7wbars =
      martingale_strategy { c1cfg with reverse_signals := false } true
        (c7wbars.map flipSig) :=
  c7_reverse_equivalence c1cfg c7wbars (by decide)

/-- Flip handling preserves the `side ≠ 0 → entry_price present` invariant. -/
lemma flipStep_entry_inv (cof : Bool) (bl pn : ℚ) (sig : ℤ) (st : MState)
    (row : Row) (fills : List Fill)
    (hinv : st.side ≠ 0 → st.entry.isSome = true) :
    (flipStep cof bl pn sig st row fills).1.side ≠ 0 →
      (flipStep cof bl pn sig st row fills).1.entry.isSome = true := by
  unfold flipStep
  split
  · split
    · intro _; rfl
    · exact hinv
  · exact hinv

/-- The manage-plus-flip block preserves the invariant. -/
lemma afterOpen_entry_inv (bl mult stp tp : ℚ) (cof : Bool) (rowZ : Row)
    (pp pn : ℚ) (sig : ℤ) (stO : MState) (fillsO : List Fill)
    (hinv : stO.side ≠ 0 → stO.entry.isSome = true) :
    (afterOpen bl mult stp tp cof rowZ pp pn sig stO fillsO).1.side ≠ 0 →
      (afterOpen bl mult stp tp cof rowZ pp pn sig stO fillsO).1.entry.isSome = true := by
  unfold afterOpen
  split
  · exact flipStep_entry_inv _ _ _ _ _ _ _ hinv
  · split
    · exact flipStep_entry_inv _ _ _ _ _ _ _ hinv
    · split
      · intro hside; exact absurd rfl hside
      · split
        · exact flipStep_entry_inv _ _ _ _ _ _ _ (fun _ => rfl)
        · exact flipStep_entry_inv _ _ _ _ _ _ _ hinv

/-- Flip handling: if it leaves the state flat it left the row alone, so a
zero-position row stays zero. -/
lemma flipStep_flat_row (cof : Bool) (bl pn : ℚ) (sig : ℤ) (st : MState)
    (row : Row) (fills : List Fill)
    (h : row.position = 0 ∨ st.side ≠ 0) :
    (flipStep cof bl pn sig st row fills).1.side = 0 →
      (flipStep cof bl pn sig st row fills).2.1.position = 0 := by
  unfold flipStep
  split
  next hcond =>
    split
    · intro hs; exact absurd hs hcond.2.1
    · intro hs
      rcases h with h0 | hN
      · exact h0
      · exact absurd hs hN
  next =>
    intro hs
    rcases h with h0 | hN
    · exact h0
    · exact absurd hs hN

/-- The manage-plus-flip block: when it ends flat, the bar's row shows zero
position. -/
lemma afterOpen_flat_row (bl mult stp tp : ℚ) (cof : Bool) (rowZ : Row)
    (pp pn : ℚ) (sig : ℤ) (stO : MState) (fillsO : List Fill)
    (hz : rowZ.position = 0) :
    (afterOpen bl mult stp tp cof rowZ pp pn sig stO fillsO).1.side = 0 →
      (afterOpen bl mult stp tp cof rowZ pp pn sig stO fillsO).2.1.position = 0 := by
  unfold afterOpen
  split
  · exact flipStep_flat_row _ _ _ _ _ _ _ (Or.inl hz)
  · split
    · exact flipStep_flat_row _ _ _ _ _ _ _ (Or.inl hz)
    next hside =>
      split
      · intro _; rfl
      · split
        · exact flipStep_flat_row _ _ _ _ _ _ _ (Or.inr hside)
        · exact flipStep_flat_row _ _ _ _ _ _ _ (Or.inr hside)

/-- The loop body preserves the invariant. -/
lemma stepBar_entry_inv (cfg : MCfg) (hs : Bool) (prev cur : Bar) (st : MState)
    (out : MState × Row × List Fill)
    (hok : stepBar cfg hs prev cur st = Except.ok out)
    (hinv : st.side ≠ 0 → st.entry.isSome = true) :
    out.1.side ≠ 0 → out.1.entry.isSome = true := by
  unfold stepBar at hok
  split at hok
  · split at hok
    · simp at hok
    · split at hok
      · injection hok with h; subst h
        exact afterOpen_entry_inv _ _ _ _ _ _ _ _ _ _ _ (fun _ => rfl)
      · injection hok with h; subst h
        exact afterOpen_entry_inv _ _ _ _ _ _ _ _ _ _ _ hinv
  · injection hok with h; subst h
    exact hinv

/-- The loop body: a bar that leaves the state flat shows zero position. -/
lemma stepBar_flat_row (cfg : MCfg) (hs : Bool) (prev cur : Bar) (st : MState)
    (out : MState × Row × List Fill)
    (hok : stepBar cfg hs prev cur st = Except.ok out) :
    out.1.side = 0 → out.2.1.position = 0 := by
  unfold stepBar at hok
  split at hok
  · split at hok
    · simp at hok
    · split at hok
      · injection hok with h; subst h
        exact afterOpen_flat_row _ _ _ _ _ _ _ _ _ _ _ rfl
      · injection hok with h; subst h
        exact afterOpen_flat_row _ _ _ _ _ _ _ _ _ _ _ rfl
  · injection hok with h; subst h
    intro _; rfl

/-- The loop emits exactly one row per bar. -/
lemma mLoop_length (cfg : MCfg) (hs : Bool) : ∀ (l : List Bar) (prev : Bar)
    (st : MState) (rows : List Row) (stF : MState) (fills : List Fill),
    mLoop cfg hs prev l st = Except.ok (rows, stF, fills) →
    rows.length = l.length := by
  intro l
  induction l with
  | nil =>
    intro prev st rows stF fills hok
    simp only [mLoop, Except.ok.injEq, Prod.mk.injEq] at hok
    obtain ⟨h1, _, _⟩ := hok
    subst h1; rfl
  | cons cur rest ih =>
    intro prev st rows stF fills hok
    cases hstep : stepBar cfg hs prev cur st with
    | error e =>
      rw [show mLoop cfg hs prev (cur :: rest) st = Except.error e by
            simp only [mLoop, hstep]] at hok
      simp at hok
    | ok out =>
      obtain ⟨st1, row, fills1⟩ := out
      cases hrec : mLoop cfg hs cur rest st1 with
      | error e =>
        rw [show mLoop cfg hs prev (cur :: rest) st = Except.error e by
              simp only [mLoop, hstep, hrec]] at hok
        simp at hok
      | ok out2 =>
        obtain ⟨rows2, stF2, fills2⟩ := out2
        rw [show mLoop cfg hs prev (cur :: rest) st =
              Except.ok (row :: rows2, stF2, fills1 ++ fills2) by
              simp only [mLoop, hstep, hrec]] at hok
        simp only [Except.ok.injEq, Prod.mk.injEq] at hok
        obtain ⟨h1, _, _⟩ := hok
        subst h1
        simp [ih cur st1 rows2 stF2 fills2 hrec]

/-- Chained over the whole loop: the invariant holds at the end, and when the
loop ends flat the last emitted row shows zero position. -/
lemma mLoop_flat_inv (cfg : MCfg) (hs : Bool) : ∀ (l : List Bar) (prev : Bar)
    (st : MState) (rows : List Row) (stF : MState) (fills : List Fill),
    mLoop cfg hs prev l st = Except.ok (rows, stF, fills) →
    (st.side ≠ 0 → st.entry.isSome = true) →
    ((stF.side ≠ 0 → stF.entry.isSome = true) ∧
     (∀ r, rows.getLast? = some r → stF.side = 0 → r.position = 0)) := by
  intro l
  induction l with
  | nil =>
    intro prev st rows stF fills hok hinv
    simp only [mLoop, Except.ok.injEq, Prod.mk.injEq] at hok
    obtain ⟨h1, h2, _⟩ := hok
    subst h1; subst h2
    exact ⟨hinv, fun r hr => by simp at hr⟩
  | cons cur rest ih =>
    intro prev st rows stF fills hok hinv
    cases hstep : stepBar cfg hs prev cur st with
    | error e =>
      rw [show mLoop cfg hs prev (cur :: rest) st = Except.error e by
            simp only [mLoop, hstep]] at hok
      simp at hok
    | ok out =>
      obtain ⟨st1, row, fills1⟩ := out
      cases hrec : mLoop cfg hs cur rest st1 with
      | error e =>
        rw [show mLoop cfg hs prev (cur :: rest) st = Except.error e by
              simp only [mLoop, hstep, hrec]] at hok
        simp at hok
      | ok out2 =>
        obtain ⟨rows2, stF2, fills2⟩ := out2
        rw [show mLoop cfg hs prev (cur :: rest) st =
              Except.ok (row :: rows2, stF2, fills1 ++ fills2) by
              simp only [mLoop, hstep, hrec]] at hok
        simp only [Except.ok.injEq, Prod.mk.injEq] at hok
        obtain ⟨h1, h2, _⟩ := hok
        subst h1; subst h2
        have hinv1 := stepBar_entry_inv cfg hs prev cur st _ hstep hinv
        obtain ⟨hinvF, hlast⟩ := ih cur st1 rows2 stF2 fills2 hrec hinv1
        refine ⟨hinvF, ?_⟩
        intro r hr hflat
        cases rows2 with
        | nil =>
          have hlen := mLoop_length cfg hs rest cur st1 [] stF2 fills2 hrec
          have hrest : rest = [] := List.length_eq_zero.mp hlen.symm
          subst hrest
          simp only [mLoop, Except.ok.injEq, Prod.mk.injEq] at hrec
          obtain ⟨_, hst, _⟩ := hrec
          have hreq : row = r := Option.some.inj hr
          subst hreq
          exact stepBar_flat_row cfg hs prev cur st _ hstep (by rw [hst]; exact hflat)
        | cons r2 t =>
          rw [List.getLast?_cons_cons] at hr
          exact hlast r hr hflat

/-- A cons list always has a last element. -/
lemma getLast_cons_isSome : ∀ (l : List Row) (a : Row), ∃ x, (a :: l).getLast? = some x := by
  intro l
  induction l with
  | nil => intro a; exact ⟨a, rfl⟩
  | cons b t ih =>
    intro a
    obtain ⟨x, hx⟩ := ih b
    exact ⟨x, by rw [List.getLast?_cons_cons]; exact hx⟩

/-- The force close rewrites the last row to position 0 / closed. -/
lemma setLastForceClosed_getLast : ∀ (l : List Row) (r : Row),
    ∃ x, (setLastForceClosed (r :: l)).getLast? = some x ∧
      x.position = 0 ∧ x.closed = true := by
  intro l
  induction l with
  | nil => intro r; exact ⟨_, rfl, rfl, rfl⟩
  | cons r2 t ih =>
    intro r
    obtain ⟨x, hx, h0, hc⟩ := ih r2
    refine ⟨x, ?_, h0, hc⟩
    show (r :: setLastForceClosed (r2 :: t)).getLast? = some x
    have hshape : ∃ y ys, setLastForceClosed (r2 :: t) = y :: ys := by
      cases t with
      | nil => exact ⟨_, _, rfl⟩
      | cons r3 t2 => exact ⟨_, _, rfl⟩
    obtain ⟨y, ys, hyy⟩ := hshape
    rw [hyy] at hx ⊢
    rw [List.getLast?_cons_cons]
    exact hx

/-- C5 corrected (amended: the final bar's closed flag is guaranteed only
when a position is still open when the series ends — a position that
take-profit-closed earlier leaves the final bar's flag clear, as the
counterexample shows.  What always holds is that a successful run never ends
with an open position: the final row's position is 0, and whenever the loop
ends with an open position the session force close also marks the final row
closed). -/
theorem c5_run_ends_flat (cfg : MCfg) (hs : Bool) (b0 : Bar) (rest : List Bar)
    (rows : List Row) (stF : MState) (fills : List Fill)
    (rows2 : List Row) (fills2 : List Fill)
    (hloop : mLoop cfg hs b0 rest ⟨0, 0, none⟩ = Except.ok (rows, stF, fills))
    (hrun : martingale_strategy cfg hs (b0 :: rest) = Except.ok (rows2, fills2)) :
    ∃ r, rows2.getLast? = some r ∧ r.position = 0 ∧
      (stF.side ≠ 0 → r.closed = true) := by
  obtain ⟨hinvF, hlast⟩ :=
    mLoop_flat_inv cfg hs rest b0 ⟨0, 0, none⟩ rows stF fills hloop
      (fun hc => absurd rfl hc)
  by_cases hcond : stF.side ≠ 0 ∧ stF.entry.isSome = true
  · rw [show martingale_strategy cfg hs (b0 :: rest) =
        Except.ok (setLastForceClosed (zeroRow hs (sigMult cfg) b0 :: rows),
          fills ++ [⟨(rest.getLastD b0).datetime, closeActOf stF.side,
            (rest.getLastD b0).close, 0, Note.sessionClose⟩]) by
        simp only [martingale_strategy, hloop, if_pos hcond]] at hrun
    simp only [Except.ok.injEq, Prod.mk.injEq] at hrun
    obtain ⟨h1, _⟩ := hrun
    subst h1
    obtain ⟨x, hx, hx0, hxc⟩ := setLastForceClosed_getLast rows (zeroRow hs (sigMult cfg) b0)
    exact ⟨x, hx, hx0, fun _ => hxc⟩
  · have hside : stF.side = 0 := by
      by_contra hne
      exact hcond ⟨hne, hinvF hne⟩
    rw [show martingale_strategy cfg hs (b0 :: rest) =
        Except.ok (zeroRow hs (sigMult cfg) b0 :: rows, fills) by
        simp only [martingale_strategy, hloop, if_neg hcond]] at hrun
    simp only [Except.ok.injEq, Prod.mk.injEq] at hrun
    obtain ⟨h1, _⟩ := hrun
    subst h1
    cases rows with
    | nil =>
      exact ⟨zeroRow hs (sigMult cfg) b0, rfl, rfl, fun hne => absurd hside hne⟩
    | cons r1 t =>
      obtain ⟨r, hgl⟩ := getLast_cons_isSome t r1
      exact ⟨r, by rw [List.getLast?_cons_cons]; exact hgl, hlast r hgl hside,
        fun hne => absurd hside hne⟩


/-- C5 witness loop rows: one row per processed bar of `c7wbars`. -/
def c5wrows : List Row :=
  [⟨1, some 103, some 1, 1, 3, false⟩, ⟨2, some 99, some 1, 1, -4, false⟩]

/-- C5 witness final output rows: the final bar is force-closed. -/
def c5wrows2 : List Row :=
  [⟨0, some 100, some 1, 0, 0, false⟩, ⟨1, some 103, some 1, 1, 3, false⟩,
   ⟨2, some 99, some 1, 0, -4, true⟩]

/-- C5 witness: the theorem applied to a run (`c7wbars`, long the whole way,
no take-profit) whose position is still open when the series ends. -/
theorem c5_run_ends_flat_witness :
    ∃ r, c5wrows2.getLast? = some r ∧ r.position = 0 ∧
      ((⟨1, 1, some 100⟩ : MState).side ≠ 0 → r.closed = true) :=
  c5_run_ends_flat c1cfg true ⟨0, some 100, some 1⟩
    [⟨1, some 103, some 1⟩, ⟨2, some 99, some 1⟩]
    c5wrows ⟨1, 1, some 100⟩
    [⟨0, Act.buy, some 100, 1, Note.openPos⟩]
    c5wrows2
    [⟨0, Act.buy, some 100, 1, Note.openPos⟩,
     ⟨2, Act.sell, some 99, 0, Note.sessionClose⟩]
    rfl rfl
